import Mathlib

/-!
# Verification of the ex-bootstrap discovery / fleet-status tool

Shallow embedding of the Go sources:

* `ipam.go` — the IP allocator (`newAllocator`, `reserve`, `next`,
  `firstHost`) together with the semantics of the `go-ipam` library calls
  it makes (`NewPrefix`, `AcquireSpecificIP`, `AcquireIP`).  IPv4/IPv6
  addresses are modelled as natural numbers (the integer value of the
  address); a CIDR prefix is a base address plus a number of host bits.
* `redfish.go` (shipped concatenated with the test file) — the
  `isBootable` classifier over ethernet-interface records.
* `main.go` — the discovery flow: seeding the allocator from the existing
  node list, querying each BMC, selecting bootable NICs, reusing or
  allocating addresses, and producing the replacement node list.
* `cmd/firmware_status.go` — the per-host aggregation of firmware
  inventory query results (version counts, in-progress counter, error
  map) and the counting-semaphore admission gate of the fleet dispatcher.

Strings are Lean `String`s; Go's `strings.ToLower` / `EqualFold` are
modelled with ASCII case mapping (all strings in the program's domain are
ASCII).  IP strings are handled by an executable dotted-quad parser and
formatter mirroring Go's `net.ParseIP` / `IP.String` on the IPv4 domain
the tool operates in.
-/

/-! ## String helpers -/

/-- ASCII lowercase of a string, modelling Go's `strings.ToLower` on the
ASCII domain. -/
def strToLower (s : String) : String := ⟨s.data.map Char.toLower⟩

/-- `needleIsAt needle hay`: `needle` occurs at the very start of `hay`. -/
def needleIsAt : List Char → List Char → Bool
  | [], _ => true
  | _ :: _, [] => false
  | c :: cs, d :: ds => c == d && needleIsAt cs ds

/-- Substring search over char lists. -/
def subSearch (needle : List Char) : List Char → Bool
  | [] => needleIsAt needle []
  | d :: ds => needleIsAt needle (d :: ds) || subSearch needle ds

/-- `strContains hay needle`, modelling Go's `strings.Contains`. -/
def strContains (hay needle : String) : Bool :=
  subSearch needle.data hay.data

/-! ## Decimal digits and dotted-quad IPv4 strings -/

/-- The decimal digit character for `n < 10`. -/
def digChar (n : Nat) : Char := Char.ofNat (48 + n)

/-- Decimal digit denoted by a character, if any. -/
def charDigit (c : Char) : Option Nat :=
  if 48 ≤ c.toNat ∧ c.toNat ≤ 57 then some (c.toNat - 48) else none

/-- Read a non-empty all-digit char list as a natural number. -/
def readDigits (cs : List Char) : Option Nat :=
  match cs with
  | [] => none
  | _ :: _ => cs.foldl (fun acc c => acc.bind fun v => (charDigit c).map fun d => v * 10 + d) (some 0)

/-- Decimal rendering of an octet value (`n < 256`), as Go prints it. -/
def octChars (n : Nat) : List Char :=
  if n < 10 then [digChar n]
  else if n < 100 then [digChar (n / 10), digChar (n % 10)]
  else [digChar (n / 100), digChar (n / 10 % 10), digChar (n % 10)]

/-- Split a char list on `'.'` separators. -/
def splitDots : List Char → List (List Char)
  | [] => [[]]
  | c :: rest =>
    if c = '.' then [] :: splitDots rest
    else
      match splitDots rest with
      | [] => [[c]]
      | g :: gs => (c :: g) :: gs

/-- Parse one dotted-quad component: non-empty, digits, value at most 255. -/
def parseOctet (cs : List Char) : Option Nat :=
  match readDigits cs with
  | none => none
  | some v => if v ≤ 255 then some v else none

/-- Parse a dotted-quad IPv4 string into its 32-bit value, modelling
`net.ParseIP` on the IPv4 domain (`none` for anything else). -/
def parseIPv4 (s : String) : Option Nat :=
  match splitDots s.data with
  | [a, b, c, d] =>
    match parseOctet a, parseOctet b, parseOctet c, parseOctet d with
    | some x, some y, some z, some w => some (((x * 256 + y) * 256 + z) * 256 + w)
    | _, _, _, _ => none
  | _ => none

/-- The char list of the dotted-quad rendering of a 32-bit value. -/
def ipChars (a : Nat) : List Char :=
  octChars (a / 16777216 % 256) ++ '.' ::
    (octChars (a / 65536 % 256) ++ '.' ::
      (octChars (a / 256 % 256) ++ '.' :: octChars (a % 256)))

/-- Dotted-quad rendering of a 32-bit value, modelling `IP.String()`. -/
def formatIPv4 (a : Nat) : String := ⟨ipChars a⟩

set_option maxRecDepth 20000 in
theorem parseOctet_octChars : ∀ n < 256, parseOctet (octChars n) = some n := by decide

set_option maxRecDepth 20000 in
theorem dot_not_mem_octChars : ∀ n < 256, '.' ∉ octChars n := by decide

theorem splitDots_ne_nil (l : List Char) : splitDots l ≠ [] := by
  cases l with
  | nil => simp [splitDots]
  | cons c rest =>
    simp only [splitDots]
    split
    · simp
    · split <;> simp_all

theorem splitDots_append_dot (x r : List Char) (hx : '.' ∉ x) :
    splitDots (x ++ '.' :: r) = x :: splitDots r := by
  induction x with
  | nil => simp [splitDots]
  | cons c cs ih =>
    have hc : c ≠ '.' := by intro h; exact hx (h ▸ List.mem_cons_self c cs)
    have hcs : '.' ∉ cs := fun h => hx (List.mem_cons_of_mem c h)
    simp only [List.cons_append, splitDots, List.append_eq, if_neg hc, ih hcs]

theorem splitDots_ipChars (a : Nat) :
    splitDots (ipChars a) =
      [octChars (a / 16777216 % 256), octChars (a / 65536 % 256),
       octChars (a / 256 % 256), octChars (a % 256)] := by
  have h0 := dot_not_mem_octChars (a / 16777216 % 256) (Nat.mod_lt _ (by norm_num))
  have h1 := dot_not_mem_octChars (a / 65536 % 256) (Nat.mod_lt _ (by norm_num))
  have h2 := dot_not_mem_octChars (a / 256 % 256) (Nat.mod_lt _ (by norm_num))
  have h3 := dot_not_mem_octChars (a % 256) (Nat.mod_lt _ (by norm_num))
  unfold ipChars
  rw [splitDots_append_dot _ _ h0, splitDots_append_dot _ _ h1,
      splitDots_append_dot _ _ h2]
  have : ∀ l : List Char, '.' ∉ l → splitDots l = [l] := by
    intro l hl
    induction l with
    | nil => rfl
    | cons c cs ih =>
      have hc : c ≠ '.' := fun h => hl (h ▸ List.mem_cons_self c cs)
      have hcs : '.' ∉ cs := fun h => hl (List.mem_cons_of_mem c h)
      simp only [splitDots, List.append_eq, if_neg hc, ih hcs]
  rw [this _ h3]

/-- Every string produced by the formatter is accepted by the parser. -/
theorem parseIPv4_formatIPv4_isSome (a : Nat) : (parseIPv4 (formatIPv4 a)).isSome := by
  have h0 := parseOctet_octChars (a / 16777216 % 256) (Nat.mod_lt _ (by norm_num))
  have h1 := parseOctet_octChars (a / 65536 % 256) (Nat.mod_lt _ (by norm_num))
  have h2 := parseOctet_octChars (a / 256 % 256) (Nat.mod_lt _ (by norm_num))
  have h3 := parseOctet_octChars (a % 256) (Nat.mod_lt _ (by norm_num))
  unfold parseIPv4
  rw [show (formatIPv4 a).data = ipChars a from rfl, splitDots_ipChars a]
  simp [h0, h1, h2, h3]

/-! ## The IP allocator (`ipam.go` plus the go-ipam primitives it calls)

An address is its integer value; a CIDR prefix is the (aligned) base
address plus the number of host bits.  The go-ipam library marks the
network address — and, for IPv4, the broadcast address — as acquired when
the prefix is created, scans upward from the network address on
`AcquireIP`, and rejects out-of-range or already-acquired addresses on
`AcquireSpecificIP` (errors the Go callers discard). -/

structure NetBlock where
  base : Nat
  hostBits : Nat
  isV4 : Bool
deriving DecidableEq

/-- Highest address of the block (the IPv4 broadcast address). -/
def NetBlock.lastAddr (p : NetBlock) : Nat := p.base + 2 ^ p.hostBits - 1

/-- `a` lies inside the block. -/
def NetBlock.inRange (p : NetBlock) (a : Nat) : Prop := p.base ≤ a ∧ a ≤ p.lastAddr

instance (p : NetBlock) (a : Nat) : Decidable (p.inRange a) := by
  unfold NetBlock.inRange; infer_instance

/-- Allocator state: the prefix plus the set of acquired addresses
(go-ipam's `ips` map, as a membership list). -/
structure IpamState where
  blk : NetBlock
  ips : List Nat
deriving DecidableEq

/-- A structured CIDR input: either a malformed string or a parsed
(version, base, prefix-length) triple. -/
inductive CIDRIn
  | malformed
  | v4 (base len : Nat)
  | v6 (base len : Nat)
deriving DecidableEq

/-- go-ipam's `NewPrefix` parsing and validation: the base must be an
in-range, aligned network address. -/
def parseCIDRIn : CIDRIn → Option NetBlock
  | .malformed => none
  | .v4 base len =>
    if len ≤ 32 ∧ base < 2 ^ 32 ∧ base % 2 ^ (32 - len) = 0 then
      some ⟨base, 32 - len, true⟩
    else none
  | .v6 base len =>
    if len ≤ 128 ∧ base < 2 ^ 128 ∧ base % 2 ^ (128 - len) = 0 then
      some ⟨base, 128 - len, false⟩
    else none

/-- go-ipam `newPrefix`: the network address is blocked, and for IPv4 the
broadcast address as well. -/
def newPrefixState (p : NetBlock) : IpamState :=
  ⟨p, if p.isV4 then [p.base, p.lastAddr] else [p.base]⟩

/-- go-ipam `AcquireSpecificIP`: acquire `a` when it is inside the prefix
and not yet acquired; otherwise an error, which every caller in this
program discards, so the state is returned unchanged. -/
def acquireSpecificIP (s : IpamState) (a : Nat) : IpamState :=
  if s.blk.inRange a ∧ a ∉ s.ips then ⟨s.blk, a :: s.ips⟩ else s

/-- The scan loop of go-ipam `AcquireIP`: the first address not yet
acquired among `start, start+1, …` (`k` candidates). -/
def findFirstFree (ips : List Nat) : Nat → Nat → Option Nat
  | _, 0 => none
  | start, k + 1 => if start ∈ ips then findFirstFree ips (start + 1) k else some start

/-- go-ipam `AcquireIP`: lowest unacquired address of the prefix, marked
acquired with the selection. -/
def acquireIP (s : IpamState) : Option (Nat × IpamState) :=
  (findFirstFree s.ips s.blk.base (2 ^ s.blk.hostBits)).map fun a => (a, ⟨s.blk, a :: s.ips⟩)

/-- Error taxonomy of the allocator: configuration error at creation,
pool exhaustion at allocation. -/
inductive AllocErr
  | config
  | exhausted
deriving DecidableEq

/-- `firstHost` from `ipam.go`: for an IPv4 prefix, increment the last
octet of the network address (Go byte arithmetic, wrapping at 256) and
return the result when it is still inside the prefix. -/
def firstHost (p : NetBlock) : Option Nat :=
  if p.isV4 then
    if p.inRange (p.base - p.base % 256 + (p.base % 256 + 1) % 256) then
      some (p.base - p.base % 256 + (p.base % 256 + 1) % 256)
    else none
  else none

/-- `newAllocator` from `ipam.go`: create the prefix (config error on a
malformed CIDR) and best-effort reserve the first host address. -/
def newAllocator (c : CIDRIn) : Except AllocErr IpamState :=
  match parseCIDRIn c with
  | none => .error .config
  | some p =>
    let s := newPrefixState p
    match firstHost p with
    | some g => .ok (acquireSpecificIP s g)
    | none => .ok s

/-- `reserve` from `ipam.go`: best-effort specific acquisition. -/
def reserve (s : IpamState) (a : Nat) : IpamState := acquireSpecificIP s a

/-- `next` from `ipam.go`: acquire the next free address or fail with a
pool-exhausted error. -/
def next (s : IpamState) : Except AllocErr (Nat × IpamState) :=
  match acquireIP s with
  | some r => .ok r
  | none => .error .exhausted

/-- Run `next` up to `k` times, collecting the allocated addresses;
stop at the first exhaustion error. -/
def nextChain (s : IpamState) : Nat → List Nat × IpamState
  | 0 => ([], s)
  | k + 1 =>
    match next s with
    | .ok (a, s') => let r := nextChain s' k; (a :: r.1, r.2)
    | .error _ => ([], s)

/-! ### Allocator lemmas -/

theorem findFirstFree_some (ips : List Nat) :
    ∀ k start a, findFirstFree ips start k = some a →
      a ∉ ips ∧ start ≤ a ∧ a < start + k ∧ ∀ b, start ≤ b → b < a → b ∈ ips := by
  intro k
  induction k with
  | zero => intro start a h; simp [findFirstFree] at h
  | succ k ih =>
    intro start a h
    simp only [findFirstFree] at h
    by_cases hs : start ∈ ips
    · rw [if_pos hs] at h
      obtain ⟨h1, h2, h3, h4⟩ := ih (start + 1) a h
      refine ⟨h1, by omega, by omega, ?_⟩
      intro b hb1 hb2
      rcases Nat.eq_or_lt_of_le hb1 with rfl | hlt
      · exact hs
      · exact h4 b hlt hb2
    · rw [if_neg hs] at h
      cases h
      exact ⟨hs, le_refl _, by omega, fun b hb1 hb2 => absurd (lt_of_le_of_lt hb1 hb2) (lt_irrefl _)⟩

theorem findFirstFree_none (ips : List Nat) :
    ∀ k start, findFirstFree ips start k = none →
      ∀ b, start ≤ b → b < start + k → b ∈ ips := by
  intro k
  induction k with
  | zero => intro start _ b hb1 hb2; omega
  | succ k ih =>
    intro start h b hb1 hb2
    simp only [findFirstFree] at h
    by_cases hs : start ∈ ips
    · rw [if_pos hs] at h
      rcases Nat.eq_or_lt_of_le hb1 with rfl | hlt
      · exact hs
      · exact ih (start + 1) h b hlt (by omega)
    · rw [if_neg hs] at h; cases h

theorem findFirstFree_isSome (ips : List Nat) :
    ∀ k start b, start ≤ b → b < start + k → b ∉ ips →
      (findFirstFree ips start k).isSome := by
  intro k
  induction k with
  | zero => intro start b h1 h2; omega
  | succ k ih =>
    intro start b h1 h2 h3
    simp only [findFirstFree]
    by_cases hs : start ∈ ips
    · rw [if_pos hs]
      have hne : b ≠ start := fun h => h3 (h ▸ hs)
      exact ih (start + 1) b (by omega) (by omega) h3
    · rw [if_neg hs]; rfl

/-- Specification of a successful `next`: the returned address is the
lowest unacquired address of the prefix and is marked acquired. -/
theorem next_ok_spec (s : IpamState) (a : Nat) (s' : IpamState)
    (h : next s = .ok (a, s')) :
    a ∉ s.ips ∧ s.blk.inRange a ∧
      (∀ b, s.blk.inRange b → b ∉ s.ips → a ≤ b) ∧
      s'.blk = s.blk ∧ s'.ips = a :: s.ips := by
  unfold next acquireIP at h
  cases hf : findFirstFree s.ips s.blk.base (2 ^ s.blk.hostBits) with
  | none => rw [hf] at h; simp at h
  | some a' =>
    rw [hf] at h
    simp only [Option.map_some'] at h
    cases h
    obtain ⟨h1, h2, h3, h4⟩ := findFirstFree_some s.ips _ _ _ hf
    have hpos : 0 < 2 ^ s.blk.hostBits := Nat.pos_pow_of_pos _ (by norm_num)
    refine ⟨h1, ⟨h2, by unfold NetBlock.lastAddr; omega⟩, ?_, rfl, rfl⟩
    intro b hb hbips
    by_contra hlt
    push_neg at hlt
    exact hbips (h4 b hb.1 hlt)

/-- `next` fails with exhaustion exactly when every address of the prefix
is acquired. -/
theorem next_error_iff (s : IpamState) :
    next s = .error .exhausted ↔ ∀ b, s.blk.inRange b → b ∈ s.ips := by
  have hpos : 0 < 2 ^ s.blk.hostBits := Nat.pos_pow_of_pos _ (by norm_num)
  constructor
  · intro h b hb
    unfold next acquireIP at h
    cases hf : findFirstFree s.ips s.blk.base (2 ^ s.blk.hostBits) with
    | none =>
      exact findFirstFree_none s.ips _ _ hf b hb.1
        (by have := hb.2; unfold NetBlock.lastAddr at this; omega)
    | some a' => rw [hf] at h; simp at h
  · intro h
    unfold next acquireIP
    cases hf : findFirstFree s.ips s.blk.base (2 ^ s.blk.hostBits) with
    | none => rfl
    | some a' =>
      obtain ⟨h1, h2, h3, _⟩ := findFirstFree_some s.ips _ _ _ hf
      exact absurd (h a' ⟨h2, by unfold NetBlock.lastAddr; omega⟩) h1

/-- Reservation of an in-range address always records it. -/
theorem reserve_mem (s : IpamState) (a : Nat) (h : s.blk.inRange a) :
    a ∈ (reserve s a).ips := by
  unfold reserve acquireSpecificIP
  by_cases hm : a ∈ s.ips
  · split <;> simp [hm]
  · rw [if_pos ⟨h, hm⟩]; exact List.mem_cons_self _ _

/-- Acquired-set membership is monotone under `reserve`. -/
theorem reserve_mono (s : IpamState) (a b : Nat) (h : b ∈ s.ips) :
    b ∈ (reserve s a).ips := by
  unfold reserve acquireSpecificIP
  split <;> simp [h]

theorem reserve_blk (s : IpamState) (a : Nat) : (reserve s a).blk = s.blk := by
  unfold reserve acquireSpecificIP
  split <;> rfl

/-- Acquired-set membership is monotone under a successful `next`. -/
theorem next_mono (s : IpamState) (a : Nat) (s' : IpamState) (b : Nat)
    (h : next s = .ok (a, s')) (hb : b ∈ s.ips) : b ∈ s'.ips := by
  obtain ⟨_, _, _, _, hips⟩ := next_ok_spec s a s' h
  rw [hips]; exact List.mem_cons_of_mem _ hb

/-- An address already acquired is never produced by a run of `next`
calls, and stays acquired. -/
theorem nextChain_avoids (A : Nat) :
    ∀ k s, A ∈ s.ips → A ∉ (nextChain s k).1 ∧ A ∈ (nextChain s k).2.ips := by
  intro k
  induction k with
  | zero => intro s h; simp [nextChain, h]
  | succ k ih =>
    intro s h
    simp only [nextChain]
    cases hn : next s with
    | ok r =>
      obtain ⟨a, s'⟩ := r
      obtain ⟨ha, _, _, _, hips⟩ := next_ok_spec s a s' hn
      have hA' : A ∈ s'.ips := by rw [hips]; exact List.mem_cons_of_mem _ h
      obtain ⟨ih1, ih2⟩ := ih s' hA'
      refine ⟨?_, ih2⟩
      intro hmem
      rcases List.mem_cons.mp hmem with rfl | hmem'
      · exact ha h
      · exact ih1 hmem'
    | error e => simpa using h


/-! ### `firstHost` and `newAllocator` -/

theorem firstHost_not_v4 (p : NetBlock) (h : p.isV4 = false) : firstHost p = none := by
  unfold firstHost
  rw [h]
  rfl

/-- On a single-address IPv4 block the incremented last octet always
falls outside the prefix. -/
theorem firstHost_v4_zero (base : Nat) : firstHost ⟨base, 0, true⟩ = none := by
  unfold firstHost
  simp only [NetBlock.inRange, NetBlock.lastAddr]
  rw [if_pos trivial, if_neg]
  intro hc
  have hmle : base % 256 ≤ base := Nat.mod_le base 256
  have hlt : base % 256 < 256 := Nat.mod_lt _ (by norm_num)
  by_cases h255 : base % 256 = 255
  · rw [h255] at hc
    simp only [pow_zero] at hc
    omega
  · have hsucc : (base % 256 + 1) % 256 = base % 256 + 1 := Nat.mod_eq_of_lt (by omega)
    rw [hsucc] at hc
    simp only [pow_zero] at hc
    omega

/-- On an IPv4 block with at least one host bit and an aligned base, the
first host is the network address plus one. -/
theorem firstHost_v4_pos (base h : Nat) (hh : 1 ≤ h) (hal : base % 2 ^ h = 0) :
    firstHost ⟨base, h, true⟩ = some (base + 1) := by
  have hdvd : (2 : Nat) ∣ base :=
    dvd_trans (dvd_pow_self 2 (Nat.one_le_iff_ne_zero.mp hh)) (Nat.dvd_of_mod_eq_zero hal)
  have hb2 : base % 2 = 0 := by omega
  have heven : base % 256 % 2 = 0 := by
    rw [Nat.mod_mod_of_dvd base (by norm_num : (2 : Nat) ∣ 256)]
    exact hb2
  have h255 : base % 256 ≠ 255 := by omega
  have hlt : base % 256 < 256 := Nat.mod_lt _ (by norm_num)
  have hsucc : (base % 256 + 1) % 256 = base % 256 + 1 := Nat.mod_eq_of_lt (by omega)
  have hmle : base % 256 ≤ base := Nat.mod_le base 256
  have hpow : 2 ≤ 2 ^ h := by
    calc (2 : Nat) = 2 ^ 1 := rfl
    _ ≤ 2 ^ h := Nat.pow_le_pow_right (by norm_num) hh
  have hc : base - base % 256 + (base % 256 + 1) % 256 = base + 1 := by
    rw [hsucc]; omega
  unfold firstHost
  simp only [NetBlock.inRange, NetBlock.lastAddr]
  rw [if_pos trivial, hc, if_pos (by omega)]

theorem newPrefixState_v4_ips (p : NetBlock) (h : p.isV4 = true) :
    (newPrefixState p).ips = [p.base, p.lastAddr] := by
  unfold newPrefixState
  rw [h]
  rfl

theorem newPrefixState_v6_ips (p : NetBlock) (h : p.isV4 = false) :
    (newPrefixState p).ips = [p.base] := by
  unfold newPrefixState
  rw [h]
  rfl

theorem acquireSpecificIP_mem_self (s : IpamState) (a : Nat) (h : s.blk.inRange a) :
    a ∈ (acquireSpecificIP s a).ips := reserve_mem s a h

theorem acquireSpecificIP_mono (s : IpamState) (a b : Nat) (h : b ∈ s.ips) :
    b ∈ (acquireSpecificIP s a).ips := reserve_mono s a b h

theorem acquireSpecificIP_blk (s : IpamState) (a : Nat) :
    (acquireSpecificIP s a).blk = s.blk := reserve_blk s a

/-- Creating an allocator from a valid IPv4 CIDR: the network address,
the broadcast address and (when a usable host exists) the first host
address are all acquired at creation. -/
theorem newAllocator_v4 (base len : Nat) (h1 : len ≤ 32) (h2 : base < 2 ^ 32)
    (h3 : base % 2 ^ (32 - len) = 0) :
    ∃ s : IpamState, newAllocator (.v4 base len) = .ok s ∧
      s.blk = ⟨base, 32 - len, true⟩ ∧
      base ∈ s.ips ∧ s.blk.lastAddr ∈ s.ips ∧
      (1 ≤ 32 - len → base + 1 ∈ s.ips) := by
  have hbp : (⟨base, 32 - len, true⟩ : NetBlock).isV4 = true := rfl
  have hips0 := newPrefixState_v4_ips ⟨base, 32 - len, true⟩ hbp
  have hblk0 : (newPrefixState ⟨base, 32 - len, true⟩).blk = ⟨base, 32 - len, true⟩ := rfl
  have hp : parseCIDRIn (.v4 base len) = some ⟨base, 32 - len, true⟩ := by
    show (if len ≤ 32 ∧ base < 2 ^ 32 ∧ base % 2 ^ (32 - len) = 0 then
        some (⟨base, 32 - len, true⟩ : NetBlock) else none) = _
    rw [if_pos ⟨h1, h2, h3⟩]
  by_cases hh : 1 ≤ 32 - len
  · have hfh := firstHost_v4_pos base (32 - len) hh h3
    have keyeq : newAllocator (.v4 base len) =
        .ok (acquireSpecificIP (newPrefixState ⟨base, 32 - len, true⟩) (base + 1)) := by
      simp only [newAllocator, hp, hfh]
    have hpow : 2 ≤ 2 ^ (32 - len) := by
      calc (2 : Nat) = 2 ^ 1 := rfl
      _ ≤ 2 ^ (32 - len) := Nat.pow_le_pow_right (by norm_num) hh
    have hin : (newPrefixState ⟨base, 32 - len, true⟩).blk.inRange (base + 1) := by
      rw [hblk0]
      show base ≤ base + 1 ∧ base + 1 ≤ base + 2 ^ (32 - len) - 1
      omega
    refine ⟨_, keyeq, ?_, ?_, ?_, fun _ => ?_⟩
    · rw [acquireSpecificIP_blk, hblk0]
    · exact acquireSpecificIP_mono _ _ _ (by rw [hips0]; exact List.mem_cons_self _ _)
    · rw [acquireSpecificIP_blk, hblk0]
      exact acquireSpecificIP_mono _ _ _
        (by rw [hips0]; exact List.mem_cons_of_mem _ (List.mem_cons_self _ _))
    · exact acquireSpecificIP_mem_self _ _ hin
  · have h0 : 32 - len = 0 := by omega
    have hfh : firstHost ⟨base, 32 - len, true⟩ = none := by
      rw [h0]; exact firstHost_v4_zero base
    have keyeq : newAllocator (.v4 base len) =
        .ok (newPrefixState ⟨base, 32 - len, true⟩) := by
      simp only [newAllocator, hp, hfh]
    refine ⟨_, keyeq, hblk0, ?_, ?_, fun hcon => absurd hcon (by omega)⟩
    · rw [hips0]; exact List.mem_cons_self _ _
    · rw [hblk0, hips0]
      exact List.mem_cons_of_mem _ (List.mem_cons_self _ _)

/-- A `next` call is fully determined by the least free in-range address. -/
theorem next_eq_of (s : IpamState) (b : Nat) (hb : s.blk.inRange b) (hfree : b ∉ s.ips)
    (hmin : ∀ c, s.blk.inRange c → c ∉ s.ips → b ≤ c) :
    next s = .ok (b, ⟨s.blk, b :: s.ips⟩) := by
  have hwin : b < s.blk.base + 2 ^ s.blk.hostBits := by
    have h2 := hb.2
    have hpos : 0 < 2 ^ s.blk.hostBits := Nat.pos_pow_of_pos _ (by norm_num)
    unfold NetBlock.lastAddr at h2
    omega
  have hsome := findFirstFree_isSome s.ips _ s.blk.base b hb.1 hwin hfree
  unfold next acquireIP
  cases hf : findFirstFree s.ips s.blk.base (2 ^ s.blk.hostBits) with
  | none => rw [hf] at hsome; simp at hsome
  | some a =>
    obtain ⟨ha1, ha2, ha3, ha4⟩ := findFirstFree_some s.ips _ _ _ hf
    have hpos : 0 < 2 ^ s.blk.hostBits := Nat.pos_pow_of_pos _ (by norm_num)
    have hinr : s.blk.inRange a := ⟨ha2, by unfold NetBlock.lastAddr; omega⟩
    have hba : b ≤ a := hmin a hinr ha1
    have hab : a ≤ b := by
      by_contra hl
      push_neg at hl
      exact hfree (ha4 b hb.1 hl)
    have heq : a = b := le_antisymm hab hba
    subst heq
    rfl

/-- Addresses produced by a run of `next` calls are pairwise distinct and
avoid everything acquired before the run. -/
theorem nextChain_nodup :
    ∀ k s, (nextChain s k).1.Nodup ∧ ∀ a ∈ (nextChain s k).1, a ∉ s.ips := by
  intro k
  induction k with
  | zero => intro s; simp [nextChain]
  | succ k ih =>
    intro s
    simp only [nextChain]
    cases hn : next s with
    | ok r =>
      obtain ⟨a, s'⟩ := r
      obtain ⟨ha, _, _, _, hips⟩ := next_ok_spec s a s' hn
      obtain ⟨ih1, ih2⟩ := ih s'
      constructor
      · refine List.nodup_cons.mpr ⟨?_, ih1⟩
        intro hmem
        have := ih2 a hmem
        rw [hips] at this
        exact this (List.mem_cons_self _ _)
      · intro b hb
        rcases List.mem_cons.mp hb with rfl | hb'
        · exact ha
        · intro hbs
          exact ih2 b hb' (by rw [hips]; exact List.mem_cons_of_mem _ hbs)
    | error e => simp

/-- **C3** (confirmed): for every pool state and every address `A` inside
the pool's prefix, after `reserve(pool, A)` no run of `next(pool)` calls
ever yields `A`. -/
theorem claim_C3_reserve_precedence (s : IpamState) (A : Nat) (k : Nat)
    (hA : s.blk.inRange A) : A ∉ (nextChain (reserve s A) k).1 :=
  (nextChain_avoids A k (reserve s A) (reserve_mem s A hA)).1

theorem claim_C3_reserve_precedence_witness :
    (⟨⟨170524672, 2, true⟩, [170524672, 170524675]⟩ : IpamState).blk.inRange 170524674 ∧
      170524674 ∉
        (nextChain (reserve ⟨⟨170524672, 2, true⟩, [170524672, 170524675]⟩ 170524674) 4).1 :=
  ⟨by decide, claim_C3_reserve_precedence ⟨⟨170524672, 2, true⟩, [170524672, 170524675]⟩
    170524674 4 (by decide)⟩

/-- **C4** (confirmed): pool creation from a valid IPv4 CIDR immediately
acquires the network address, the broadcast address, and (when one
exists) the first usable host address; creation from a malformed prefix
fails with the configuration error; and the CIDR `10.42.0.0/30`
(integer base 170524672) admits exactly one successful `next` call, the
second failing with pool exhaustion. -/
theorem claim_C4_pool_creation :
    newAllocator .malformed = .error .config ∧
    (∀ base len, len ≤ 32 → base < 2 ^ 32 → base % 2 ^ (32 - len) = 0 →
      ∃ s : IpamState, newAllocator (.v4 base len) = .ok s ∧
        base ∈ s.ips ∧ s.blk.lastAddr ∈ s.ips ∧ (1 ≤ 32 - len → base + 1 ∈ s.ips)) ∧
    (newAllocator (.v4 170524672 30) =
        .ok ⟨⟨170524672, 2, true⟩, [170524673, 170524672, 170524675]⟩ ∧
      next ⟨⟨170524672, 2, true⟩, [170524673, 170524672, 170524675]⟩ =
        .ok (170524674, ⟨⟨170524672, 2, true⟩, [170524674, 170524673, 170524672, 170524675]⟩) ∧
      next ⟨⟨170524672, 2, true⟩, [170524674, 170524673, 170524672, 170524675]⟩ =
        .error .exhausted) := by
  refine ⟨rfl, ?_, by rfl, by rfl, by rfl⟩
  intro base len h1 h2 h3
  obtain ⟨s, hs, _, hmem⟩ := newAllocator_v4 base len h1 h2 h3
  exact ⟨s, hs, hmem⟩

theorem claim_C4_pool_creation_witness :
    (30 ≤ 32 ∧ 170524672 < 2 ^ 32 ∧ 170524672 % 2 ^ (32 - 30) = 0) ∧
      ∃ s : IpamState, newAllocator (.v4 170524672 30) = .ok s ∧
        170524672 ∈ s.ips ∧ s.blk.lastAddr ∈ s.ips ∧
        (1 ≤ 32 - 30 → 170524672 + 1 ∈ s.ips) :=
  ⟨⟨by norm_num, by norm_num, by norm_num⟩,
    claim_C4_pool_creation.2.1 170524672 30 (by norm_num) (by norm_num) (by norm_num)⟩

/-- **C5** (confirmed): `next` returns the lowest-numbered unacquired
address of the prefix and marks it acquired in the same operation; on a
pool created from a valid IPv4 CIDR, any run of `next` calls yields
pairwise-distinct addresses, none equal to the network, broadcast, or
reserved first-host address; and `next` fails with the pool-exhausted
error exactly when no unacquired address remains. -/
theorem claim_C5_next_allocation :
    (∀ s a s', next s = .ok (a, s') →
      a ∉ s.ips ∧ s.blk.inRange a ∧ (∀ b, s.blk.inRange b → b ∉ s.ips → a ≤ b) ∧
        s'.ips = a :: s.ips) ∧
    (∀ s : IpamState, (∀ b, s.blk.inRange b → b ∈ s.ips) → next s = .error .exhausted) ∧
    (∀ base len k s₀, len ≤ 32 → base < 2 ^ 32 → base % 2 ^ (32 - len) = 0 →
      newAllocator (.v4 base len) = .ok s₀ →
      (nextChain s₀ k).1.Nodup ∧
        ∀ a ∈ (nextChain s₀ k).1,
          a ≠ base ∧ a ≠ (⟨base, 32 - len, true⟩ : NetBlock).lastAddr ∧
          (1 ≤ 32 - len → a ≠ base + 1)) := by
  refine ⟨?_, ?_, ?_⟩
  · intro s a s' h
    obtain ⟨h1, h2, h3, _, h5⟩ := next_ok_spec s a s' h
    exact ⟨h1, h2, h3, h5⟩
  · intro s h
    exact (next_error_iff s).mpr h
  · intro base len k s₀ h1 h2 h3 hnew
    obtain ⟨s, hs, hblk, hbase, hlast, hfirst⟩ := newAllocator_v4 base len h1 h2 h3
    rw [hnew] at hs
    have hss : s = s₀ := by
      injection hs with h'
      exact h'.symm
    subst hss
    obtain ⟨hnd, havoid⟩ := nextChain_nodup k s
    refine ⟨hnd, ?_⟩
    intro a ha
    have hnot := havoid a ha
    refine ⟨?_, ?_, ?_⟩
    · intro heq; exact hnot (heq ▸ hbase)
    · intro heq; rw [heq, ← hblk] at hnot; exact hnot hlast
    · intro hh heq; exact hnot (heq ▸ hfirst hh)

theorem claim_C5_next_allocation_witness :
    (next ⟨⟨170524672, 2, true⟩, [170524673, 170524672, 170524675]⟩ =
        .ok (170524674, ⟨⟨170524672, 2, true⟩, [170524674, 170524673, 170524672, 170524675]⟩)) ∧
    (170524674 ∉ ([170524673, 170524672, 170524675] : List Nat) ∧
      (⟨170524672, 2, true⟩ : NetBlock).inRange 170524674 ∧
      (∀ b, (⟨170524672, 2, true⟩ : NetBlock).inRange b →
        b ∉ ([170524673, 170524672, 170524675] : List Nat) → 170524674 ≤ b) ∧
      ([170524674, 170524673, 170524672, 170524675] : List Nat) =
        170524674 :: [170524673, 170524672, 170524675]) :=
  ⟨by rfl, claim_C5_next_allocation.1 ⟨⟨170524672, 2, true⟩, [170524673, 170524672, 170524675]⟩
    170524674 ⟨⟨170524672, 2, true⟩, [170524674, 170524673, 170524672, 170524675]⟩ (by rfl)⟩

/-- **C9** (confirmed): for a non-IPv4 prefix — and for an IPv4 prefix
whose computed first-host address falls outside the prefix, such as a
single-address block — `firstHost` returns nothing, so pool creation
reserves no gateway; on such a pool the first usable host address is the
very first address handed out by `next`. -/
theorem claim_C9_no_gateway_when_not_v4 :
    (∀ p : NetBlock, p.isV4 = false → firstHost p = none) ∧
    (∀ base : Nat, firstHost ⟨base, 0, true⟩ = none) ∧
    (∀ base len, len ≤ 128 → base < 2 ^ 128 → base % 2 ^ (128 - len) = 0 →
      1 ≤ 128 - len →
      newAllocator (.v6 base len) = .ok ⟨⟨base, 128 - len, false⟩, [base]⟩ ∧
        next ⟨⟨base, 128 - len, false⟩, [base]⟩ =
          .ok (base + 1, ⟨⟨base, 128 - len, false⟩, [base + 1, base]⟩)) := by
  refine ⟨firstHost_not_v4, firstHost_v4_zero, ?_⟩
  intro base len h1 h2 h3 hh
  have hp : parseCIDRIn (.v6 base len) = some ⟨base, 128 - len, false⟩ := by
    show (if len ≤ 128 ∧ base < 2 ^ 128 ∧ base % 2 ^ (128 - len) = 0 then
        some (⟨base, 128 - len, false⟩ : NetBlock) else none) = _
    rw [if_pos ⟨h1, h2, h3⟩]
  have hfh : firstHost ⟨base, 128 - len, false⟩ = none := firstHost_not_v4 _ rfl
  have hips : newPrefixState ⟨base, 128 - len, false⟩ = ⟨⟨base, 128 - len, false⟩, [base]⟩ := by
    unfold newPrefixState
    rfl
  constructor
  · simp only [newAllocator, hp, hfh, hips]
  · have hpow : 2 ≤ 2 ^ (128 - len) := by
      calc (2 : Nat) = 2 ^ 1 := rfl
      _ ≤ 2 ^ (128 - len) := Nat.pow_le_pow_right (by norm_num) hh
    have hin : (⟨base, 128 - len, false⟩ : NetBlock).inRange (base + 1) := by
      show base ≤ base + 1 ∧ base + 1 ≤ base + 2 ^ (128 - len) - 1
      omega
    have hfree : base + 1 ∉ ([base] : List Nat) := by
      simp
    have hmin : ∀ c, (⟨base, 128 - len, false⟩ : NetBlock).inRange c →
        c ∉ ([base] : List Nat) → base + 1 ≤ c := by
      intro c hc hnc
      have h1c : base ≤ c := hc.1
      have : c ≠ base := by
        intro heq; exact hnc (by simp [heq])
      omega
    exact next_eq_of ⟨⟨base, 128 - len, false⟩, [base]⟩ (base + 1) hin hfree hmin

theorem claim_C9_no_gateway_when_not_v4_witness :
    (120 ≤ 128 ∧ (0 : Nat) < 2 ^ 128 ∧ (0 : Nat) % 2 ^ (128 - 120) = 0 ∧ 1 ≤ 128 - 120) ∧
      newAllocator (.v6 0 120) = .ok ⟨⟨0, 128 - 120, false⟩, [0]⟩ ∧
        next ⟨⟨0, 128 - 120, false⟩, [0]⟩ =
          .ok (0 + 1, ⟨⟨0, 128 - 120, false⟩, [0 + 1, 0]⟩) :=
  ⟨⟨by norm_num, by norm_num, by norm_num, by norm_num⟩,
    claim_C9_no_gateway_when_not_v4.2.2 0 120 (by norm_num) (by norm_num) (by norm_num)
      (by norm_num)⟩

/-! ## The bootable-interface classifier (`redfish.go`) -/

structure RfIPv4Address where
  address : String
  origin : String
deriving DecidableEq

structure RfEthernetInterface where
  id : String
  name : String
  interfaceEnabled : Option Bool
  macAddress : String
  uefiDevicePath : String
  ipv4Addresses : List RfIPv4Address
deriving DecidableEq

/-- `isBootable` from `redfish.go`: UEFI device-path hints, then DHCP
address origin (Go's `EqualFold` on the ASCII domain), then the
enabled-with-MAC fallback (`nil` enabled pointer counts as enabled). -/
def isBootable (n : RfEthernetInterface) : Bool :=
  let uefi := strToLower n.uefiDevicePath
  if strContains uefi "pxe" || strContains uefi "ipv4" || strContains uefi "ipv6"
      || strContains uefi "mac(" then
    true
  else if n.ipv4Addresses.any fun a => strToLower a.origin == "dhcp" then
    true
  else if n.macAddress != "" &&
      (match n.interfaceEnabled with | none => true | some b => b) then
    true
  else
    false

/-- Spec-side reading of rule 1: the UEFI path contains, case
insensitively, `pxe`, `ipv4`, `ipv6` or `mac(`. -/
def bootPathHint (n : RfEthernetInterface) : Bool :=
  strContains (strToLower n.uefiDevicePath) "pxe" ||
    strContains (strToLower n.uefiDevicePath) "ipv4" ||
    strContains (strToLower n.uefiDevicePath) "ipv6" ||
    strContains (strToLower n.uefiDevicePath) "mac("

/-- Spec-side reading of rule 2: some IPv4 address has origin `dhcp`,
case-insensitively. -/
def bootDhcpHint (n : RfEthernetInterface) : Bool :=
  n.ipv4Addresses.any fun a => strToLower a.origin == "dhcp"

/-- Spec-side reading of rule 3's enabled test: the enabled flag is true
or absent. -/
def enabledOrUnknown (n : RfEthernetInterface) : Bool :=
  match n.interfaceEnabled with
  | none => true
  | some b => b

/-- **C6** (confirmed): the classifier applies its rules in order with
first match winning — a path hint forces bootable regardless of the other
fields, then a DHCP-origin address forces bootable, and otherwise the
interface is bootable exactly when it has a non-empty MAC and its enabled
flag is true or absent; in particular an interface whose UEFI path
contains `Mac(`, with an empty address list and `enabled=false`, is
bootable. -/
theorem claim_C6_bootable_classifier :
    (∀ n : RfEthernetInterface, bootPathHint n = true → isBootable n = true) ∧
    (∀ n : RfEthernetInterface, bootDhcpHint n = true → isBootable n = true) ∧
    (∀ n : RfEthernetInterface, bootPathHint n = false → bootDhcpHint n = false →
      isBootable n = (n.macAddress != "" && enabledOrUnknown n)) ∧
    isBootable
      ⟨"1", "eth0", some false, "aa:bb:cc:dd:ee:ff",
        "PciRoot(0x0)/Pci(0x1C,0x0)/Mac(AABBCCDDEEFF,0x0)", []⟩ = true := by
  refine ⟨?_, ?_, ?_, by decide⟩
  · intro n h
    unfold bootPathHint at h
    simp only [isBootable]
    rw [h]
    rfl
  · intro n h
    unfold bootDhcpHint at h
    simp only [isBootable]
    rw [h]
    split
    · rfl
    · rfl
  · intro n h1 h2
    unfold bootPathHint at h1
    unfold bootDhcpHint at h2
    unfold enabledOrUnknown
    simp only [isBootable, h1, h2]
    cases hc : (n.macAddress != "" &&
        match n.interfaceEnabled with | none => true | some b => b) <;>
      simp [hc]

/-! ## Fleet status aggregation (`cmd/firmware_status.go`)

Per host, the command queries each firmware target, folding the results
into a summary version (`ver`), an in-progress flag (`anyInProgress`) and
the last error (`errorsList[h]`, overwritten per failing target).  The
per-host contribution is then merged into the shared aggregate under the
mutex; merging is modelled as a fold over the hosts in delivery order
(counts and per-host map entries are insensitive to that order). -/

structure FwCondition where
  message : String
  severity : String
deriving DecidableEq

structure FirmwareInv where
  version : String
  state : String
  conditions : List FwCondition
deriving DecidableEq

/-- The per-condition in-progress test of the target loop. -/
def condInProgress (c : FwCondition) : Bool :=
  strContains (strToLower c.message) "updat" ||
    strContains (strToLower c.message) "in progress" ||
    strContains (strToLower c.message) "install" ||
    strContains (strToLower c.message) "running" ||
    c.severity == "Warning" || c.severity == "Critical"

/-- The per-target state/condition in-progress test of the loop body. -/
def invInProgress (inv : FirmwareInv) : Bool :=
  (strToLower inv.state != "" && strToLower inv.state != "enabled" &&
    strToLower inv.state != "ok") ||
    inv.conditions.any condInProgress

/-- One iteration of the target loop: `(ver, anyInProgress, lastErr)`. -/
def statusStep (acc : String × Bool × Option String) (r : Except String FirmwareInv) :
    String × Bool × Option String :=
  match r with
  | .error e => (acc.1, acc.2.1, some e)
  | .ok inv =>
    ((if acc.1 = "" then inv.version else acc.1),
      acc.2.1 || invInProgress inv,
      acc.2.2)

/-- The whole target loop of one host's goroutine. -/
def statusFold (rs : List (Except String FirmwareInv)) : String × Bool × Option String :=
  rs.foldl statusStep ("", false, none)

/-- Bump a version count in the association-list map. -/
def bumpCount : List (String × Nat) → String → List (String × Nat)
  | [], k => [(k, 1)]
  | (k', v) :: rest, k =>
    if k' = k then (k', v + 1) :: rest else (k', v) :: bumpCount rest k

/-- Set a host's error entry (`errorsList[h] = e`). -/
def setErr : List (String × String) → String → String → List (String × String)
  | [], h, e => [(h, e)]
  | (h', e') :: rest, h, e =>
    if h' = h then (h', e) :: rest else (h', e') :: setErr rest h e

/-- The shared aggregate: version counts, in-progress counter, error map. -/
structure FwAgg where
  versionCounts : List (String × Nat)
  inProgress : Nat
  errorsList : List (String × String)
deriving DecidableEq

/-- Merge one host's outcome into the aggregate, exactly as the
goroutine body does after the target loop. -/
def recordHost (agg : FwAgg) (hr : String × List (Except String FirmwareInv)) : FwAgg :=
  let f := statusFold hr.2
  let ver := if f.1 = "" then "(unknown)" else f.1
  { versionCounts := bumpCount agg.versionCounts ver
    inProgress := agg.inProgress + (if f.2.1 then 1 else 0)
    errorsList :=
      match f.2.2 with
      | some e => setErr agg.errorsList hr.1 e
      | none => agg.errorsList }

/-- A whole dispatch: every host's outcome merged into the aggregate. -/
def fwDispatch (hosts : List (String × List (Except String FirmwareInv))) : FwAgg :=
  hosts.foldl recordHost ⟨[], 0, []⟩

/-- Total of the categorical version counts. -/
def countTotal (m : List (String × Nat)) : Nat := (m.map fun kv => kv.2).sum

/-- Count recorded for one version key. -/
def countOf : List (String × Nat) → String → Nat
  | [], _ => 0
  | (k', v) :: rest, k => if k' = k then v else countOf rest k

/-- A host fails when it has at least one target and every target query
errors. -/
def hostFails (rs : List (Except String FirmwareInv)) : Bool :=
  !rs.isEmpty && rs.all fun r => match r with | .error _ => true | .ok _ => false

/-- A host succeeds when every target query returns a record. -/
def hostSucceeds (rs : List (Except String FirmwareInv)) : Bool :=
  rs.all fun r => match r with | .error _ => false | .ok _ => true

/-! ### Aggregation lemmas -/

theorem recordHost_versionCounts (agg : FwAgg) (h : String)
    (rs : List (Except String FirmwareInv)) :
    (recordHost agg (h, rs)).versionCounts =
      bumpCount agg.versionCounts
        (if (statusFold rs).1 = "" then "(unknown)" else (statusFold rs).1) := rfl

theorem recordHost_inProgress (agg : FwAgg) (h : String)
    (rs : List (Except String FirmwareInv)) :
    (recordHost agg (h, rs)).inProgress =
      agg.inProgress + (if (statusFold rs).2.1 then 1 else 0) := rfl

theorem recordHost_errorsList (agg : FwAgg) (h : String)
    (rs : List (Except String FirmwareInv)) :
    (recordHost agg (h, rs)).errorsList =
      match (statusFold rs).2.2 with
      | some e => setErr agg.errorsList h e
      | none => agg.errorsList := rfl

theorem statusStep_error_fst (acc : String × Bool × Option String) (e : String) :
    (statusStep acc (.error e)).1 = acc.1 := rfl

theorem foldl_statusStep_all_error_fst (rs : List (Except String FirmwareInv)) :
    ∀ acc : String × Bool × Option String,
      (rs.all fun r => match r with | .error _ => true | .ok _ => false) = true →
      (rs.foldl statusStep acc).1 = acc.1 := by
  induction rs with
  | nil => intro acc _; rfl
  | cons r rest ih =>
    intro acc hall
    simp only [List.all_cons, Bool.and_eq_true] at hall
    cases r with
    | error e => exact ih (statusStep acc (.error e)) hall.2
    | ok inv => cases hall.1

theorem foldl_statusStep_all_error_flag (rs : List (Except String FirmwareInv)) :
    ∀ acc : String × Bool × Option String,
      (rs.all fun r => match r with | .error _ => true | .ok _ => false) = true →
      (rs.foldl statusStep acc).2.1 = acc.2.1 := by
  induction rs with
  | nil => intro acc _; rfl
  | cons r rest ih =>
    intro acc hall
    simp only [List.all_cons, Bool.and_eq_true] at hall
    cases r with
    | error e => exact ih (statusStep acc (.error e)) hall.2
    | ok inv => cases hall.1

theorem foldl_statusStep_all_error_some (rs : List (Except String FirmwareInv)) :
    ∀ acc : String × Bool × Option String,
      (rs.all fun r => match r with | .error _ => true | .ok _ => false) = true →
      rs ≠ [] → (rs.foldl statusStep acc).2.2.isSome := by
  induction rs with
  | nil => intro acc _ hne; exact absurd rfl hne
  | cons r rest ih =>
    intro acc hall _
    simp only [List.all_cons, Bool.and_eq_true] at hall
    cases r with
    | error e =>
      cases hrest : rest with
      | nil =>
        subst hrest
        rfl
      | cons r' rest' =>
        rw [← hrest]
        exact ih (statusStep acc (.error e)) hall.2 (by rw [hrest]; simp)
    | ok inv => cases hall.1

theorem foldl_statusStep_all_ok_err (rs : List (Except String FirmwareInv)) :
    ∀ acc : String × Bool × Option String,
      (rs.all fun r => match r with | .error _ => false | .ok _ => true) = true →
      (rs.foldl statusStep acc).2.2 = acc.2.2 := by
  induction rs with
  | nil => intro acc _; rfl
  | cons r rest ih =>
    intro acc hall
    simp only [List.all_cons, Bool.and_eq_true] at hall
    cases r with
    | error e => cases hall.1
    | ok inv => exact ih (statusStep acc (.ok inv)) hall.2

theorem countTotal_cons (kv : String × Nat) (m : List (String × Nat)) :
    countTotal (kv :: m) = kv.2 + countTotal m := by
  unfold countTotal
  simp

theorem countTotal_bumpCount (m : List (String × Nat)) (k : String) :
    countTotal (bumpCount m k) = countTotal m + 1 := by
  induction m with
  | nil => rfl
  | cons kv rest ih =>
    obtain ⟨k', v⟩ := kv
    unfold bumpCount
    by_cases h : k' = k
    · rw [if_pos h, countTotal_cons, countTotal_cons]
      omega
    · rw [if_neg h, countTotal_cons, countTotal_cons, ih]
      omega

theorem countOf_bumpCount_self (m : List (String × Nat)) (k : String) :
    countOf (bumpCount m k) k = countOf m k + 1 := by
  induction m with
  | nil => simp [bumpCount, countOf]
  | cons kv rest ih =>
    obtain ⟨k', v⟩ := kv
    unfold bumpCount
    by_cases h : k' = k
    · rw [if_pos h]
      unfold countOf
      rw [if_pos h, if_pos h]
    · rw [if_neg h]
      unfold countOf
      rw [if_neg h, if_neg h]
      exact ih

theorem countOf_bumpCount_le (m : List (String × Nat)) (k k' : String) :
    countOf m k' ≤ countOf (bumpCount m k) k' := by
  induction m with
  | nil =>
    exact Nat.zero_le _
  | cons kv rest ih =>
    obtain ⟨k'', v⟩ := kv
    unfold bumpCount
    by_cases h : k'' = k
    · rw [if_pos h]
      unfold countOf
      by_cases h2 : k'' = k'
      · rw [if_pos h2, if_pos h2]; omega
      · rw [if_neg h2, if_neg h2]
    · rw [if_neg h]
      unfold countOf
      by_cases h2 : k'' = k'
      · rw [if_pos h2, if_pos h2]
      · rw [if_neg h2, if_neg h2]
        exact ih

theorem setErr_keys_new (m : List (String × String)) (h e : String)
    (hnot : h ∉ m.map Prod.fst) :
    (setErr m h e).map Prod.fst = m.map Prod.fst ++ [h] := by
  induction m with
  | nil => rfl
  | cons kv rest ih =>
    obtain ⟨h', e'⟩ := kv
    simp only [List.map_cons, List.mem_cons] at hnot
    push_neg at hnot
    unfold setErr
    rw [if_neg (fun hc => hnot.1 hc.symm)]
    simp only [List.map_cons, List.cons_append]
    rw [ih hnot.2]

/-- Effect of one dispatch fold over a host list in which every host
either fails on all targets or succeeds on all targets. -/
theorem fwFold_spec (hosts : List (String × List (Except String FirmwareInv))) :
    ∀ agg : FwAgg,
      (∀ x ∈ hosts, hostFails x.2 = true ∨ hostSucceeds x.2 = true) →
      (hosts.map Prod.fst).Nodup →
      (∀ x ∈ hosts, x.1 ∉ agg.errorsList.map Prod.fst) →
      (hosts.foldl recordHost agg).errorsList.map Prod.fst =
          agg.errorsList.map Prod.fst ++
            ((hosts.filter fun x => hostFails x.2).map Prod.fst) ∧
        countTotal (hosts.foldl recordHost agg).versionCounts =
          countTotal agg.versionCounts + hosts.length ∧
        countOf agg.versionCounts "(unknown)" +
            (hosts.filter fun x => hostFails x.2).length ≤
          countOf (hosts.foldl recordHost agg).versionCounts "(unknown)" := by
  induction hosts with
  | nil => intro agg _ _ _; simp
  | cons x hosts ih =>
    intro agg hpart hnd hdisj
    obtain ⟨h, rs⟩ := x
    have hpx := hpart (h, rs) (List.mem_cons_self _ _)
    simp only [List.map_cons, List.nodup_cons] at hnd
    obtain ⟨hh, hnd'⟩ := hnd
    have hdh := hdisj (h, rs) (List.mem_cons_self _ _)
    simp only [List.foldl_cons]
    cases hf : hostFails rs with
    | false =>
      have hfil : ((h, rs) :: hosts).filter (fun x => hostFails x.2) =
          hosts.filter (fun x => hostFails x.2) := by
        simp [List.filter_cons, hf]
      have hsucc : hostSucceeds rs = true := by
        rcases hpx with hcase | hcase
        · rw [hf] at hcase; cases hcase
        · exact hcase
      unfold hostSucceeds at hsucc
      have herr : (statusFold rs).2.2 = none :=
        foldl_statusStep_all_ok_err rs ("", false, none) hsucc
      have hagg_err : (recordHost agg (h, rs)).errorsList = agg.errorsList := by
        rw [recordHost_errorsList, herr]
      have hagg_cnt := recordHost_versionCounts agg h rs
      obtain ⟨ih1, ih2, ih3⟩ := ih (recordHost agg (h, rs))
        (fun y hy => hpart y (List.mem_cons_of_mem _ hy)) hnd'
        (fun y hy => by rw [hagg_err]; exact hdisj y (List.mem_cons_of_mem _ hy))
      refine ⟨?_, ?_, ?_⟩
      · rw [ih1, hagg_err, hfil]
      · rw [ih2, hagg_cnt, countTotal_bumpCount]
        simp only [List.length_cons]
        omega
      · rw [hfil]
        have hle := countOf_bumpCount_le agg.versionCounts
          (if (statusFold rs).1 = "" then "(unknown)" else (statusFold rs).1) "(unknown)"
        rw [hagg_cnt] at ih3
        omega
    | true =>
      have hfil : ((h, rs) :: hosts).filter (fun x => hostFails x.2) =
          (h, rs) :: hosts.filter (fun x => hostFails x.2) := by
        simp [List.filter_cons, hf]
      have hfparts : rs ≠ [] ∧
          (rs.all fun r => match r with | .error _ => true | .ok _ => false) = true := by
        unfold hostFails at hf
        obtain ⟨h1, h2⟩ := Bool.and_eq_true _ _ |>.mp hf
        refine ⟨?_, h2⟩
        intro hnil
        rw [hnil] at h1
        cases h1
      have hfst : (statusFold rs).1 = "" :=
        foldl_statusStep_all_error_fst rs ("", false, none) hfparts.2
      have hsome : (statusFold rs).2.2.isSome :=
        foldl_statusStep_all_error_some rs ("", false, none) hfparts.2 hfparts.1
      obtain ⟨e, he⟩ := Option.isSome_iff_exists.mp hsome
      have hagg_err : (recordHost agg (h, rs)).errorsList = setErr agg.errorsList h e := by
        rw [recordHost_errorsList, he]
      have hagg_keys : (recordHost agg (h, rs)).errorsList.map Prod.fst =
          agg.errorsList.map Prod.fst ++ [h] := by
        rw [hagg_err]
        exact setErr_keys_new agg.errorsList h e hdh
      have hagg_cnt : (recordHost agg (h, rs)).versionCounts =
          bumpCount agg.versionCounts "(unknown)" := by
        rw [recordHost_versionCounts, hfst, if_pos rfl]
      obtain ⟨ih1, ih2, ih3⟩ := ih (recordHost agg (h, rs))
        (fun y hy => hpart y (List.mem_cons_of_mem _ hy)) hnd'
        (fun y hy => by
          rw [hagg_keys]
          intro hmem
          rcases List.mem_append.mp hmem with hmem' | hmem'
          · exact hdisj y (List.mem_cons_of_mem _ hy) hmem'
          · rcases List.mem_singleton.mp hmem' with rfl
            exact hh (List.mem_map_of_mem Prod.fst hy))
      refine ⟨?_, ?_, ?_⟩
      · rw [ih1, hagg_keys, hfil]
        simp
      · rw [ih2, hagg_cnt, countTotal_bumpCount]
        simp only [List.length_cons]
        omega
      · rw [hfil]
        rw [hagg_cnt, countOf_bumpCount_self] at ih3
        simp only [List.length_cons]
        omega

/-- **C1** counterexample: with one fully-failing host and one succeeding
host, the failing host gets its error-map entry but is also counted in
the categorical version counts under `"(unknown)"`, so the counts sum to
the total number of hosts (2), not to the number of succeeding hosts (1),
and the failed host contributes to both structures. -/
theorem claim_C1_counterexample :
    hostFails [Except.error "boom"] = true ∧
      hostSucceeds [Except.ok (⟨"v1", "Enabled", []⟩ : FirmwareInv)] = true ∧
      (fwDispatch [("h1", [Except.error "boom"]),
          ("h2", [Except.ok (⟨"v1", "Enabled", []⟩ : FirmwareInv)])]).errorsList =
        [("h1", "boom")] ∧
      countTotal (fwDispatch [("h1", [Except.error "boom"]),
          ("h2", [Except.ok (⟨"v1", "Enabled", []⟩ : FirmwareInv)])]).versionCounts = 2 ∧
      countOf (fwDispatch [("h1", [Except.error "boom"]),
          ("h2", [Except.ok (⟨"v1", "Enabled", []⟩ : FirmwareInv)])]).versionCounts
        "(unknown)" = 1 := by
  refine ⟨rfl, rfl, rfl, rfl, rfl⟩

/-- **C1** (amended): in a dispatch over distinct hosts where some hosts
fail (every target query errors) and the rest succeed (no target query
errors), the error map has exactly one entry per failed host and no entry
for a succeeding host; the categorical version counts sum to the total
number of hosts — not to the number of succeeding hosts — because each
failed host is additionally counted under the `"(unknown)"` category. -/
theorem claim_C1_aggregate_amended
    (hosts : List (String × List (Except String FirmwareInv)))
    (hnd : (hosts.map Prod.fst).Nodup)
    (hpart : ∀ x ∈ hosts, hostFails x.2 = true ∨ hostSucceeds x.2 = true) :
    (fwDispatch hosts).errorsList.map Prod.fst =
        (hosts.filter fun x => hostFails x.2).map Prod.fst ∧
      countTotal (fwDispatch hosts).versionCounts = hosts.length ∧
      (hosts.filter fun x => hostFails x.2).length ≤
        countOf (fwDispatch hosts).versionCounts "(unknown)" := by
  obtain ⟨h1, h2, h3⟩ := fwFold_spec hosts ⟨[], 0, []⟩ hpart hnd (by intro x _ hmem; cases hmem)
  refine ⟨?_, ?_, ?_⟩
  · rw [show fwDispatch hosts = hosts.foldl recordHost ⟨[], 0, []⟩ from rfl, h1]
    rfl
  · rw [show fwDispatch hosts = hosts.foldl recordHost ⟨[], 0, []⟩ from rfl, h2]
    have h0 : countTotal (⟨[], 0, []⟩ : FwAgg).versionCounts = 0 := rfl
    omega
  · rw [show fwDispatch hosts = hosts.foldl recordHost ⟨[], 0, []⟩ from rfl]
    have : countOf (⟨[], 0, []⟩ : FwAgg).versionCounts "(unknown)" = 0 := rfl
    omega

/-- Ten-host example for the amended aggregate property: three hosts
fail and seven succeed across four distinct version strings. -/
def c1ExHosts : List (String × List (Except String FirmwareInv)) :=
  [("f1", [Except.error "e1"]), ("f2", [Except.error "e2"]), ("f3", [Except.error "e3"]),
   ("s1", [Except.ok ⟨"v1", "Enabled", []⟩]), ("s2", [Except.ok ⟨"v1", "Enabled", []⟩]),
   ("s3", [Except.ok ⟨"v2", "Enabled", []⟩]), ("s4", [Except.ok ⟨"v2", "Enabled", []⟩]),
   ("s5", [Except.ok ⟨"v3", "Enabled", []⟩]), ("s6", [Except.ok ⟨"v3", "Enabled", []⟩]),
   ("s7", [Except.ok ⟨"v4", "Enabled", []⟩])]

theorem claim_C1_aggregate_amended_witness :
    ((c1ExHosts.map Prod.fst).Nodup ∧
      ∀ x ∈ c1ExHosts, hostFails x.2 = true ∨ hostSucceeds x.2 = true) ∧
    ((fwDispatch c1ExHosts).errorsList.map Prod.fst =
        (c1ExHosts.filter fun x => hostFails x.2).map Prod.fst ∧
      countTotal (fwDispatch c1ExHosts).versionCounts = c1ExHosts.length ∧
      (c1ExHosts.filter fun x => hostFails x.2).length ≤
        countOf (fwDispatch c1ExHosts).versionCounts "(unknown)") :=
  ⟨⟨by decide, by decide⟩, claim_C1_aggregate_amended c1ExHosts (by decide) (by decide)⟩

/-- Over a whole fold the in-progress counter grows by at most the number
of hosts processed. -/
theorem fwFold_inProgress_le (hosts : List (String × List (Except String FirmwareInv))) :
    ∀ agg : FwAgg,
      (hosts.foldl recordHost agg).inProgress ≤ agg.inProgress + hosts.length := by
  induction hosts with
  | nil => intro agg; simp
  | cons x hosts ih =>
    intro agg
    obtain ⟨h, rs⟩ := x
    simp only [List.foldl_cons, List.length_cons]
    have h1 := ih (recordHost agg (h, rs))
    have h2 := recordHost_inProgress agg h rs
    have h3 : (recordHost agg (h, rs)).inProgress ≤ agg.inProgress + 1 := by
      rw [h2]
      split <;> omega
    omega

/-- **C7** (confirmed): the in-progress counter is incremented at most
once per host — a single host's merge adds at most one, a whole dispatch
never exceeds the host count, and a host whose several targets each
independently indicate an update in progress still contributes exactly
one. -/
theorem claim_C7_in_progress_at_most_once :
    (∀ (agg : FwAgg) (h : String) (rs : List (Except String FirmwareInv)),
      (recordHost agg (h, rs)).inProgress ≤ agg.inProgress + 1) ∧
    (∀ hosts : List (String × List (Except String FirmwareInv)),
      (fwDispatch hosts).inProgress ≤ hosts.length) ∧
    (fwDispatch [("h1",
      [Except.ok (⟨"1.0", "Updating", []⟩ : FirmwareInv),
       Except.ok (⟨"1.0", "Enabled", [⟨"update in progress", "Warning"⟩]⟩ :
         FirmwareInv)])]).inProgress = 1 := by
  refine ⟨?_, ?_, by rfl⟩
  · intro agg h rs
    rw [recordHost_inProgress]
    split <;> omega
  · intro hosts
    have := fwFold_inProgress_le hosts ⟨[], 0, []⟩
    simpa using this

/-! ## The fleet dispatcher's admission gate (`cmd/firmware_status.go`)

Each host's goroutine first sends into the counting channel
`sem := make(chan struct{}, max(1, fwBatchSize))` and receives from it
when done; the per-host operation runs only while a slot is held.  An
execution is modelled as a trace of start/finish events over host
indices: a start is admitted only while fewer than the channel capacity
are in flight, and each host starts at most once (one goroutine per
host). -/

inductive FleetEv
  | start (i : Nat)
  | finish (i : Nat)
deriving DecidableEq

/-- Capacity of the admission gate, `max(1, fwBatchSize)` over a Go
`int` batch size. -/
def gateCap (batchSize : Int) : Nat := max 1 batchSize.toNat

/-- Validity of an event trace for `n` hosts under capacity `cap`,
threading the in-flight host indices and the already-started hosts. -/
def validTrace (n cap : Nat) : List Nat → List Nat → List FleetEv → Bool
  | _, _, [] => true
  | active, started, .start i :: tr =>
    decide (i < n) && !(started.contains i) && decide (active.length < cap) &&
      validTrace n cap (i :: active) (i :: started) tr
  | active, started, .finish i :: tr =>
    active.contains i && validTrace n cap (active.erase i) started tr

/-- The in-flight and started sets after replaying a trace. -/
def replay : List Nat → List Nat → List FleetEv → List Nat × List Nat
  | active, started, [] => (active, started)
  | active, started, .start i :: tr => replay (i :: active) (i :: started) tr
  | active, started, .finish i :: tr => replay (active.erase i) started tr

theorem nodup_lt_length_le (l : List Nat) (n : Nat) (hnd : l.Nodup)
    (hlt : ∀ i ∈ l, i < n) : l.length ≤ n := by
  have h1 : l.toFinset.card = l.length := List.toFinset_card_of_nodup hnd
  have h2 : l.toFinset ⊆ Finset.range n := by
    intro x hx
    rw [List.mem_toFinset] at hx
    exact Finset.mem_range.mpr (hlt x hx)
  have h3 := Finset.card_le_card h2
  rw [h1, Finset.card_range] at h3
  exact h3

/-- Invariant of every prefix of a valid trace: the number of in-flight
operations stays at or below the gate capacity and the host count. -/
theorem replay_bound (n cap : Nat) :
    ∀ (tr : List FleetEv) (active started : List Nat),
      validTrace n cap active started tr = true →
      active.length ≤ cap → active.Nodup → active ⊆ started →
      started.Nodup → (∀ i ∈ started, i < n) →
      ∀ k, (replay active started (tr.take k)).1.length ≤ cap ∧
        (replay active started (tr.take k)).1.length ≤ n := by
  intro tr
  induction tr with
  | nil =>
    intro active started _ hlen hnd hsub hsnd hbnd k
    simp only [List.take_nil, replay]
    exact ⟨hlen, nodup_lt_length_le active n hnd fun i hi => hbnd i (hsub hi)⟩
  | cons ev tr ih =>
    intro active started hval hlen hnd hsub hsnd hbnd k
    cases k with
    | zero =>
      simp only [List.take_zero, replay]
      exact ⟨hlen, nodup_lt_length_le active n hnd fun i hi => hbnd i (hsub hi)⟩
    | succ k =>
      cases ev with
      | start i =>
        simp only [validTrace, Bool.and_eq_true, Bool.not_eq_true',
          decide_eq_true_eq] at hval
        obtain ⟨⟨⟨hin, hns⟩, hcap⟩, hval'⟩ := hval
        have hnsm : i ∉ started := by simpa using hns
        simp only [List.take_succ_cons, replay]
        exact ih (i :: active) (i :: started) hval' (by simp; omega)
          (List.nodup_cons.mpr ⟨fun hmem => hnsm (hsub hmem), hnd⟩)
          (List.cons_subset_cons i hsub)
          (List.nodup_cons.mpr ⟨hnsm, hsnd⟩)
          (fun j hj => by
            rcases List.mem_cons.mp hj with rfl | hj'
            · exact hin
            · exact hbnd j hj') k
      | finish i =>
        simp only [validTrace, Bool.and_eq_true, decide_eq_true_eq] at hval
        obtain ⟨hmem, hval'⟩ := hval
        simp only [List.take_succ_cons, replay]
        exact ih (active.erase i) started hval'
          (le_trans (List.erase_sublist i active).length_le hlen)
          (hnd.erase i)
          (fun j hj => hsub (List.mem_of_mem_erase hj)) hsnd hbnd k

/-- A burst of fresh starts is admitted whenever it fits under the
capacity, and leaves all of them in flight. -/
theorem allStarts_valid (n cap : Nat) :
    ∀ (l : List Nat) (active started : List Nat),
      (∀ i ∈ l, i < n) → l.Nodup → (∀ i ∈ l, i ∉ started) →
      active.length + l.length ≤ cap →
      validTrace n cap active started (l.map FleetEv.start) = true ∧
        (replay active started (l.map FleetEv.start)).1.length =
          active.length + l.length := by
  intro l
  induction l with
  | nil =>
    intro active started _ _ _ _
    simp [validTrace, replay]
  | cons i l ih =>
    intro active started hlt hnd hfresh hcap
    simp only [List.length_cons] at hcap
    simp only [List.map_cons, validTrace, Bool.and_eq_true, Bool.not_eq_true',
      decide_eq_true_eq, replay]
    have hnd' := List.nodup_cons.mp hnd
    obtain ⟨hrec, hlen⟩ := ih (i :: active) (i :: started)
      (fun j hj => hlt j (List.mem_cons_of_mem _ hj)) hnd'.2
      (fun j hj hmem => by
        rcases List.mem_cons.mp hmem with rfl | hmem'
        · exact hnd'.1 hj
        · exact hfresh j (List.mem_cons_of_mem _ hj) hmem')
      (by simp; omega)
    refine ⟨⟨⟨⟨hlt i (List.mem_cons_self _ _),
      by simpa using hfresh i (List.mem_cons_self _ _)⟩,
      by omega⟩, hrec⟩, ?_⟩
    rw [hlen]
    simp
    omega

/-- **C8** counterexample: with batch size 0 the gate capacity is
`max(1, 0) = 1`, so a valid trace has one operation in flight — more
than the claim's "at most batchSize (= 0) operations in flight". -/
theorem claim_C8_counterexample :
    gateCap 0 = 1 ∧
      validTrace 1 (gateCap 0) [] [] [FleetEv.start 0] = true ∧
      (replay [] [] [FleetEv.start 0]).1.length = 1 := by
  refine ⟨rfl, by decide, rfl⟩

/-- **C8** (amended): along every valid dispatch trace the number of
in-flight per-host operations never exceeds `max(1, batchSize)` nor the
host count; a batch size of 0 or 1 (or negative) gives effective
concurrency 1; and a batch size at least the host count admits a trace
with every host simultaneously in flight. -/
theorem claim_C8_gate_bound (n : Nat) (batchSize : Int) (tr : List FleetEv)
    (hval : validTrace n (gateCap batchSize) [] [] tr = true) :
    (∀ k, (replay [] [] (tr.take k)).1.length ≤ gateCap batchSize ∧
      (replay [] [] (tr.take k)).1.length ≤ n) ∧
    (batchSize ≤ 1 → ∀ k, (replay [] [] (tr.take k)).1.length ≤ 1) ∧
    ((n : Int) ≤ batchSize →
      validTrace n (gateCap batchSize) [] []
          ((List.range n).map FleetEv.start) = true ∧
        (replay [] [] ((List.range n).map FleetEv.start)).1.length = n) := by
  have hbase := replay_bound n (gateCap batchSize) tr [] [] hval
    (by simp [gateCap]) List.nodup_nil (by intro x hx; cases hx)
    List.nodup_nil (by intro i hi; cases hi)
  refine ⟨hbase, ?_, ?_⟩
  · intro hb k
    have hcap1 : gateCap batchSize = 1 := by
      have h1 : batchSize.toNat ≤ 1 := by omega
      unfold gateCap
      exact Nat.max_eq_left h1
    have hk := (hbase k).1
    rw [hcap1] at hk
    exact hk
  · intro hn
    have hcapn : n ≤ gateCap batchSize := by
      have h1 : n ≤ batchSize.toNat := by omega
      exact le_trans h1 (Nat.le_max_right 1 _)
    have hall := allStarts_valid n (gateCap batchSize) (List.range n) [] []
      (fun i hi => List.mem_range.mp hi) (List.nodup_range n)
      (by intro i _ hmem; cases hmem)
      (by simpa using hcapn)
    refine ⟨hall.1, ?_⟩
    rw [hall.2]
    simp

theorem claim_C8_gate_bound_witness :
    validTrace 2 (gateCap 2) [] []
        [FleetEv.start 0, FleetEv.start 1, FleetEv.finish 0, FleetEv.finish 1] = true ∧
      ((∀ k, (replay [] [] (List.take k
            [FleetEv.start 0, FleetEv.start 1, FleetEv.finish 0,
              FleetEv.finish 1])).1.length ≤ gateCap 2 ∧
          (replay [] [] (List.take k
            [FleetEv.start 0, FleetEv.start 1, FleetEv.finish 0,
              FleetEv.finish 1])).1.length ≤ 2) ∧
        ((2 : Int) ≤ 1 → ∀ k, (replay [] [] (List.take k
            [FleetEv.start 0, FleetEv.start 1, FleetEv.finish 0,
              FleetEv.finish 1])).1.length ≤ 1) ∧
        ((2 : Int) ≤ 2 →
          validTrace 2 (gateCap 2) [] [] ((List.range 2).map FleetEv.start) = true ∧
            (replay [] [] ((List.range 2).map FleetEv.start)).1.length = 2)) :=
  ⟨by decide, claim_C8_gate_bound 2 2
    [FleetEv.start 0, FleetEv.start 1, FleetEv.finish 0, FleetEv.finish 1] (by decide)⟩

/-! ## The discovery flow (`main.go`)

The YAML model types (`Entry`, `FileFormat`, from the repo's `types.go`,
reconstructed from the spec's data model: xname, hardware address,
address) and the per-BMC discovery loop.  `bmcXnameToNode` lives in
`xname.go`, which is not among the sources, so the flow is parameterised
over it (`toNode`); per-BMC Redfish interaction is summarised by a
responder `resp` mapping a host to its interface list, `none` when
either the systems query or the interface listing fails (both lead to
the same skip-with-warning). -/

structure Entry where
  xname : String
  mac : String
  ip : String
deriving DecidableEq

structure FileFormat where
  bmcs : List Entry
  nodes : List Entry
deriving DecidableEq

/-- `findByXname` from `utils.go`: the first entry with the given xname. -/
def findByXname (l : List Entry) (x : String) : Option Entry :=
  l.find? fun e => e.xname == x

/-- Host selection in both flows: the record's IP, or its xname when the
IP field is empty (`main.go` and `firmware_status.go`). -/
def hostOf (b : Entry) : String := if b.ip = "" then b.xname else b.ip

/-- The host list of the fleet status flow, inventory branch
(`firmware_status.go`). -/
def statusHosts (doc : FileFormat) : List String := doc.bmcs.map hostOf

/-- The node xname for bootable NIC number `idx` of a BMC: a `-pxeN`
suffix is appended when the BMC has more than one bootable NIC. -/
def nodeXFor (toNode : String → String) (bx : String) (multi : Bool) (idx : Nat) : String :=
  if multi then toNode bx ++ "-pxe" ++ Nat.repr (idx + 1) else toNode bx

/-- `alloc.reserve(ipStr)` on a raw string: go-ipam parses it and the
error of an unparsable or unavailable address is discarded. -/
def reserveStr (s : IpamState) (str : String) : IpamState :=
  match parseIPv4 str with
  | some a => reserve s a
  | none => s

/-- The allocation arm of the loop body: `alloc.next()`, `die` on
failure (modelled as failure of the whole run). -/
def allocFresh (s : IpamState) : Option (String × IpamState) :=
  match next s with
  | .ok (a, s') => some (formatIPv4 a, s')
  | .error _ => none

/-- Address choice for one node xname: reuse the existing node entry's
address when it parses, else allocate. -/
def allocOne (nodes : List Entry) (nodeX : String) (s : IpamState) :
    Option (String × IpamState) :=
  match findByXname nodes nodeX with
  | some e =>
    if (parseIPv4 e.ip).isSome then some (e.ip, reserveStr s e.ip)
    else allocFresh s
  | none => allocFresh s

/-- The inner loop over a BMC's bootable NICs, producing node entries. -/
def allocNics (toNode : String → String) (nodes : List Entry) (bx : String) (multi : Bool) :
    List RfEthernetInterface → Nat → IpamState → Option (List Entry × IpamState)
  | [], _, s => some ([], s)
  | nic :: rest, idx, s =>
    match allocOne nodes (nodeXFor toNode bx multi idx) s with
    | none => none
    | some (ipStr, s') =>
      match allocNics toNode nodes bx multi rest (idx + 1) s' with
      | none => none
      | some (out, sf) =>
        some (⟨nodeXFor toNode bx multi idx, strToLower nic.macAddress, ipStr⟩ :: out, sf)

/-- Bootable NIC selection: NICs with a MAC passing `isBootable`, else
the first NIC with a MAC as fallback, else nothing. -/
def bootableOf (nics : List RfEthernetInterface) : List RfEthernetInterface :=
  let b := nics.filter fun n => n.macAddress != "" && isBootable n
  if b.isEmpty then
    match nics.find? fun n => n.macAddress != "" with
    | some n => [n]
    | none => []
  else b

/-- The outer loop over the BMC list. -/
def discoverBmcs (toNode : String → String)
    (resp : String → Option (List RfEthernetInterface)) (nodes0 : List Entry) :
    List Entry → IpamState → Option (List Entry × IpamState)
  | [], s => some ([], s)
  | b :: bs, s =>
    match resp (hostOf b) with
    | none => discoverBmcs toNode resp nodes0 bs s
    | some nics =>
      if (bootableOf nics).isEmpty then discoverBmcs toNode resp nodes0 bs s
      else
        match allocNics toNode nodes0 b.xname (decide (1 < (bootableOf nics).length))
            (bootableOf nics) 0 s with
        | none => none
        | some (blk, s') =>
          match discoverBmcs toNode resp nodes0 bs s' with
          | none => none
          | some (rest, sf) => some (blk ++ rest, sf)

/-- Pre-reservation of the previously assigned node addresses. -/
def seedNodes : IpamState → List Entry → IpamState
  | s, [] => s
  | s, e :: rest =>
    seedNodes (match parseIPv4 e.ip with | some a => reserve s a | none => s) rest

/-- The whole discovery flow: seed the allocator from the existing node
list, walk the BMCs, and return the replacement node list. -/
def discover (toNode : String → String)
    (resp : String → Option (List RfEthernetInterface)) (doc : FileFormat)
    (s0 : IpamState) : Option (List Entry) :=
  (discoverBmcs toNode resp doc.nodes doc.bmcs (seedNodes s0 doc.nodes)).map Prod.fst

/-! ### Discovery lemmas -/

theorem allocFresh_parse (s : IpamState) (ipStr : String) (s' : IpamState)
    (h : allocFresh s = some (ipStr, s')) : (parseIPv4 ipStr).isSome := by
  unfold allocFresh at h
  cases hn : next s with
  | ok r =>
    obtain ⟨a, s1⟩ := r
    simp only [hn, Option.some.injEq, Prod.mk.injEq] at h
    obtain ⟨h1, _⟩ := h
    rw [← h1]
    exact parseIPv4_formatIPv4_isSome a
  | error e =>
    simp [hn] at h

theorem allocOne_parse (nodes : List Entry) (nodeX : String) (s : IpamState)
    (ipStr : String) (s' : IpamState) (h : allocOne nodes nodeX s = some (ipStr, s')) :
    (parseIPv4 ipStr).isSome := by
  unfold allocOne at h
  cases hf : findByXname nodes nodeX with
  | some e =>
    simp only [hf] at h
    by_cases hp : (parseIPv4 e.ip).isSome
    · rw [if_pos hp] at h
      simp only [Option.some.injEq, Prod.mk.injEq] at h
      obtain ⟨h1, _⟩ := h
      rw [← h1]
      exact hp
    · rw [if_neg hp] at h
      exact allocFresh_parse s ipStr s' h
  | none =>
    simp only [hf] at h
    exact allocFresh_parse s ipStr s' h

theorem allocOne_reuse (nodes : List Entry) (nodeX : String) (s : IpamState) (e : Entry)
    (hf : findByXname nodes nodeX = some e) (hp : (parseIPv4 e.ip).isSome) :
    allocOne nodes nodeX s = some (e.ip, reserveStr s e.ip) := by
  unfold allocOne
  simp only [hf, hp, if_true]

theorem allocNics_ips_parse (toNode : String → String) (nodes : List Entry)
    (bx : String) (multi : Bool) :
    ∀ (nics : List RfEthernetInterface) (idx : Nat) (s : IpamState)
      (blk : List Entry) (sf : IpamState),
      allocNics toNode nodes bx multi nics idx s = some (blk, sf) →
      ∀ e ∈ blk, (parseIPv4 e.ip).isSome := by
  intro nics
  induction nics with
  | nil =>
    intro idx s blk sf h e he
    unfold allocNics at h
    simp only [Option.some.injEq, Prod.mk.injEq] at h
    obtain ⟨h1, _⟩ := h
    rw [← h1] at he
    cases he
  | cons nic rest ih =>
    intro idx s blk sf h e he
    unfold allocNics at h
    cases h1 : allocOne nodes (nodeXFor toNode bx multi idx) s with
    | none => simp [h1] at h
    | some p =>
      obtain ⟨ipStr, s1⟩ := p
      simp only [h1] at h
      cases h2 : allocNics toNode nodes bx multi rest (idx + 1) s1 with
      | none => simp [h2] at h
      | some q =>
        obtain ⟨out, sf2⟩ := q
        simp only [h2, Option.some.injEq, Prod.mk.injEq] at h
        obtain ⟨hblk, _⟩ := h
        rw [← hblk] at he
        rcases List.mem_cons.mp he with rfl | he'
        · exact allocOne_parse nodes _ s ipStr s1 h1
        · exact ih (idx + 1) s1 out sf2 h2 e he'

theorem allocNics_replay (toNode : String → String) (nodes0 nodes1 : List Entry)
    (bx : String) (multi : Bool) :
    ∀ (nics : List RfEthernetInterface) (idx : Nat) (s sf : IpamState)
      (blk : List Entry) (s' : IpamState),
      allocNics toNode nodes0 bx multi nics idx s = some (blk, sf) →
      (∀ e ∈ blk, findByXname nodes1 e.xname = some e) →
      (∀ e ∈ blk, (parseIPv4 e.ip).isSome) →
      ∃ sf', allocNics toNode nodes1 bx multi nics idx s' = some (blk, sf') := by
  intro nics
  induction nics with
  | nil =>
    intro idx s sf blk s' h _ _
    unfold allocNics at h
    simp only [Option.some.injEq, Prod.mk.injEq] at h
    obtain ⟨h1, _⟩ := h
    subst h1
    exact ⟨s', rfl⟩
  | cons nic rest ih =>
    intro idx s sf blk s' h hfind hparse
    unfold allocNics at h
    cases h1 : allocOne nodes0 (nodeXFor toNode bx multi idx) s with
    | none => simp [h1] at h
    | some p =>
      obtain ⟨ipStr, s1⟩ := p
      simp only [h1] at h
      cases h2 : allocNics toNode nodes0 bx multi rest (idx + 1) s1 with
      | none => simp [h2] at h
      | some q =>
        obtain ⟨out, sf2⟩ := q
        simp only [h2, Option.some.injEq, Prod.mk.injEq] at h
        obtain ⟨hblk, _⟩ := h
        subst hblk
        have hmem : (⟨nodeXFor toNode bx multi idx, strToLower nic.macAddress, ipStr⟩ :
            Entry) ∈ (⟨nodeXFor toNode bx multi idx, strToLower nic.macAddress, ipStr⟩ :
            Entry) :: out := List.mem_cons_self _ _
        have hfind' : findByXname nodes1 (nodeXFor toNode bx multi idx) =
            some ⟨nodeXFor toNode bx multi idx, strToLower nic.macAddress, ipStr⟩ :=
          hfind _ hmem
        have hparse' : (parseIPv4 ipStr).isSome := hparse _ hmem
        have halloc : allocOne nodes1 (nodeXFor toNode bx multi idx) s' =
            some (ipStr, reserveStr s' ipStr) :=
          allocOne_reuse nodes1 _ s' _ hfind' hparse'
        obtain ⟨sf', hrec⟩ := ih (idx + 1) s1 sf2 out (reserveStr s' ipStr) h2
          (fun e he => hfind e (List.mem_cons_of_mem _ he))
          (fun e he => hparse e (List.mem_cons_of_mem _ he))
        refine ⟨sf', ?_⟩
        unfold allocNics
        simp only [halloc, hrec]

theorem discoverBmcs_ips_parse (toNode : String → String)
    (resp : String → Option (List RfEthernetInterface)) (nodes0 : List Entry) :
    ∀ (bs : List Entry) (s : IpamState) (o : List Entry) (sf : IpamState),
      discoverBmcs toNode resp nodes0 bs s = some (o, sf) →
      ∀ e ∈ o, (parseIPv4 e.ip).isSome := by
  intro bs
  induction bs with
  | nil =>
    intro s o sf h e he
    unfold discoverBmcs at h
    simp only [Option.some.injEq, Prod.mk.injEq] at h
    obtain ⟨h1, _⟩ := h
    rw [← h1] at he
    cases he
  | cons b bs ih =>
    intro s o sf h e he
    unfold discoverBmcs at h
    cases hr : resp (hostOf b) with
    | none =>
      simp only [hr] at h
      exact ih s o sf h e he
    | some nics =>
      simp only [hr] at h
      by_cases hempty : (bootableOf nics).isEmpty
      · rw [if_pos hempty] at h
        exact ih s o sf h e he
      · rw [if_neg hempty] at h
        cases h1 : allocNics toNode nodes0 b.xname
            (decide (1 < (bootableOf nics).length)) (bootableOf nics) 0 s with
        | none => simp [h1] at h
        | some p =>
          obtain ⟨blk, s1⟩ := p
          simp only [h1] at h
          cases h2 : discoverBmcs toNode resp nodes0 bs s1 with
          | none => simp [h2] at h
          | some q =>
            obtain ⟨rest, sf2⟩ := q
            simp only [h2, Option.some.injEq, Prod.mk.injEq] at h
            obtain ⟨ho, _⟩ := h
            rw [← ho] at he
            rcases List.mem_append.mp he with hm | hm
            · exact allocNics_ips_parse toNode nodes0 b.xname _ (bootableOf nics) 0 s
                blk s1 h1 e hm
            · exact ih s1 rest sf2 h2 e hm

theorem discoverBmcs_replay (toNode : String → String)
    (resp : String → Option (List RfEthernetInterface)) (nodes0 nodes1 : List Entry) :
    ∀ (bs : List Entry) (s : IpamState) (o : List Entry) (sf : IpamState) (s' : IpamState),
      discoverBmcs toNode resp nodes0 bs s = some (o, sf) →
      (∀ e ∈ o, findByXname nodes1 e.xname = some e) →
      (∀ e ∈ o, (parseIPv4 e.ip).isSome) →
      ∃ sf', discoverBmcs toNode resp nodes1 bs s' = some (o, sf') := by
  intro bs
  induction bs with
  | nil =>
    intro s o sf s' h _ _
    unfold discoverBmcs at h
    simp only [Option.some.injEq, Prod.mk.injEq] at h
    obtain ⟨h1, _⟩ := h
    subst h1
    exact ⟨s', rfl⟩
  | cons b bs ih =>
    intro s o sf s' h hfind hparse
    unfold discoverBmcs at h
    cases hr : resp (hostOf b) with
    | none =>
      simp only [hr] at h
      obtain ⟨sf', hrec⟩ := ih s o sf s' h hfind hparse
      refine ⟨sf', ?_⟩
      unfold discoverBmcs
      simp only [hr]
      exact hrec
    | some nics =>
      simp only [hr] at h
      by_cases hempty : (bootableOf nics).isEmpty
      · rw [if_pos hempty] at h
        obtain ⟨sf', hrec⟩ := ih s o sf s' h hfind hparse
        refine ⟨sf', ?_⟩
        unfold discoverBmcs
        simp only [hr]
        rw [if_pos hempty]
        exact hrec
      · rw [if_neg hempty] at h
        cases h1 : allocNics toNode nodes0 b.xname
            (decide (1 < (bootableOf nics).length)) (bootableOf nics) 0 s with
        | none => simp [h1] at h
        | some p =>
          obtain ⟨blk, s1⟩ := p
          simp only [h1] at h
          cases h2 : discoverBmcs toNode resp nodes0 bs s1 with
          | none => simp [h2] at h
          | some q =>
            obtain ⟨rest, sf2⟩ := q
            simp only [h2, Option.some.injEq, Prod.mk.injEq] at h
            obtain ⟨ho, _⟩ := h
            subst ho
            obtain ⟨s1', halloc'⟩ := allocNics_replay toNode nodes0 nodes1 b.xname _
              (bootableOf nics) 0 s s1 blk s' h1
              (fun e he => hfind e (List.mem_append_left _ he))
              (fun e he => hparse e (List.mem_append_left _ he))
            obtain ⟨sf', hrec'⟩ := ih s1 rest sf2 s1' h2
              (fun e he => hfind e (List.mem_append_right _ he))
              (fun e he => hparse e (List.mem_append_right _ he))
            refine ⟨sf', ?_⟩
            unfold discoverBmcs
            simp only [hr]
            rw [if_neg hempty]
            simp only [halloc', hrec']

theorem findByXname_self (l : List Entry) (hnd : (l.map Entry.xname).Nodup) :
    ∀ e ∈ l, findByXname l e.xname = some e := by
  induction l with
  | nil => intro e he; cases he
  | cons a l ih =>
    simp only [List.map_cons, List.nodup_cons] at hnd
    intro e he
    rcases List.mem_cons.mp he with rfl | he'
    · unfold findByXname
      rw [List.find?_cons_of_pos]
      simp
    · have hne : a.xname ≠ e.xname := by
        intro hcontra
        exact hnd.1 (hcontra ▸ List.mem_map_of_mem Entry.xname he')
      unfold findByXname
      rw [List.find?_cons_of_neg]
      · exact ih hnd.2 e he'
      · simp [hne]

/-- Modelled from the spec: `bmcXnameToNode` lives in `xname.go`, which
is not among the sources; the spec treats xname synthesis as a simple
out-of-scope mapping, modelled here as appending the node suffix to the
BMC xname.  The counterexample below does not depend on this choice:
every function maps the two equal BMC xnames to the same node xname. -/
def bmcXnameToNode (x : String) : String := x ++ "n0"

/-- Responder of the counterexample: both controller hosts report one
bootable NIC (non-empty MAC, enabled state unknown). -/
def c2Resp : String → Option (List RfEthernetInterface) :=
  fun h => if h == "h1" || h == "h2" then some [⟨"1", "e0", none, "aa", "", []⟩] else none

/-- Allocator state for `10.42.0.0/29` right after creation: network,
broadcast and gateway acquired. -/
def c2Pool : IpamState := ⟨⟨170524672, 3, true⟩, [170524673, 170524672, 170524679]⟩

/-- **C2** counterexample: two distinct controllers that share an xname
(and hence a node xname) break idempotence — the first run assigns
`10.42.0.2` and `10.42.0.3`, but the second run, reading the node list
the first run wrote, resolves both controllers to the first entry via
`findByXname` and rewrites the second node's address to `10.42.0.2`. -/
theorem claim_C2_counterexample :
    discover bmcXnameToNode c2Resp ⟨[⟨"x1", "", "h1"⟩, ⟨"x1", "", "h2"⟩], []⟩ c2Pool =
        some [⟨"x1n0", "aa", "10.42.0.2"⟩, ⟨"x1n0", "aa", "10.42.0.3"⟩] ∧
      discover bmcXnameToNode c2Resp
          ⟨[⟨"x1", "", "h1"⟩, ⟨"x1", "", "h2"⟩],
            [⟨"x1n0", "aa", "10.42.0.2"⟩, ⟨"x1n0", "aa", "10.42.0.3"⟩]⟩ c2Pool =
        some [⟨"x1n0", "aa", "10.42.0.2"⟩, ⟨"x1n0", "aa", "10.42.0.2"⟩] ∧
      some [(⟨"x1n0", "aa", "10.42.0.2"⟩ : Entry), ⟨"x1n0", "aa", "10.42.0.2"⟩] ≠
        some [(⟨"x1n0", "aa", "10.42.0.2"⟩ : Entry), ⟨"x1n0", "aa", "10.42.0.3"⟩] := by
  refine ⟨by decide, by decide, by decide⟩

/-- **C2** (amended): when the node list written by the first discovery
run has pairwise-distinct xnames — which holds whenever distinct
controllers yield distinct node xnames — a second run against the same
controller set, the written node list, and the same per-BMC responses
reproduces the node list exactly: every node keeps its xname, MAC and
IP, and no address is reallocated. -/
theorem claim_C2_discovery_idempotent (toNode : String → String)
    (resp : String → Option (List RfEthernetInterface)) (doc : FileFormat)
    (s0 : IpamState) (o : List Entry)
    (hrun1 : discover toNode resp doc s0 = some o)
    (hnd : (o.map Entry.xname).Nodup) :
    discover toNode resp ⟨doc.bmcs, o⟩ s0 = some o := by
  unfold discover at hrun1
  cases h1 : discoverBmcs toNode resp doc.nodes doc.bmcs (seedNodes s0 doc.nodes) with
  | none => rw [h1] at hrun1; cases hrun1
  | some r =>
    obtain ⟨o', sf⟩ := r
    rw [h1] at hrun1
    simp only [Option.map_some', Option.some.injEq] at hrun1
    subst hrun1
    have hparse := discoverBmcs_ips_parse toNode resp doc.nodes doc.bmcs _ o' sf h1
    have hfind := findByXname_self o' hnd
    obtain ⟨sf', h2⟩ := discoverBmcs_replay toNode resp doc.nodes o' doc.bmcs _ o' sf
      (seedNodes s0 o') h1 hfind hparse
    show (discoverBmcs toNode resp o' doc.bmcs (seedNodes s0 o')).map Prod.fst = some o'
    rw [h2]
    rfl

theorem claim_C2_discovery_idempotent_witness :
    (discover bmcXnameToNode c2Resp ⟨[⟨"x1", "", "h1"⟩], []⟩ c2Pool =
        some [⟨"x1n0", "aa", "10.42.0.2"⟩] ∧
      (([(⟨"x1n0", "aa", "10.42.0.2"⟩ : Entry)]).map Entry.xname).Nodup) ∧
      discover bmcXnameToNode c2Resp
          ⟨[⟨"x1", "", "h1"⟩], [⟨"x1n0", "aa", "10.42.0.2"⟩]⟩ c2Pool =
        some [⟨"x1n0", "aa", "10.42.0.2"⟩] :=
  ⟨⟨by decide, by decide⟩,
    claim_C2_discovery_idempotent bmcXnameToNode c2Resp ⟨[⟨"x1", "", "h1"⟩], []⟩ c2Pool
      [⟨"x1n0", "aa", "10.42.0.2"⟩] (by decide) (by decide)⟩

/-- **C10** (confirmed): a management-controller record with an empty IP
field is addressed by its xname, unchanged, in both flows, and the
record is processed rather than skipped: the status flow emits one host
per record with this record contributing its xname, and the discovery
flow queries the responder at the xname — a responder answering only at
the xname still yields a node record. -/
theorem claim_C10_empty_ip_uses_xname (b : Entry) (hip : b.ip = "") :
    hostOf b = b.xname ∧
    (∀ doc : FileFormat, b ∈ doc.bmcs → b.xname ∈ statusHosts doc) ∧
    (∀ doc : FileFormat, (statusHosts doc).length = doc.bmcs.length) ∧
    discover bmcXnameToNode
        (fun h => if h == "x0" then some [⟨"1", "e0", none, "aa", "", []⟩] else none)
        ⟨[⟨"x0", "mm", ""⟩], []⟩ c2Pool =
      some [⟨"x0n0", "aa", "10.42.0.2"⟩] := by
  have h1 : hostOf b = b.xname := by unfold hostOf; rw [if_pos hip]
  refine ⟨h1, ?_, ?_, by decide⟩
  · intro doc hmem
    unfold statusHosts
    rw [← h1]
    exact List.mem_map_of_mem hostOf hmem
  · intro doc
    unfold statusHosts
    exact List.length_map _ _

theorem claim_C10_empty_ip_uses_xname_witness :
    (⟨"x0", "mm", ""⟩ : Entry).ip = "" ∧
      (hostOf ⟨"x0", "mm", ""⟩ = "x0" ∧
        (∀ doc : FileFormat, (⟨"x0", "mm", ""⟩ : Entry) ∈ doc.bmcs →
          "x0" ∈ statusHosts doc) ∧
        (∀ doc : FileFormat, (statusHosts doc).length = doc.bmcs.length) ∧
        discover bmcXnameToNode
            (fun h => if h == "x0" then some [⟨"1", "e0", none, "aa", "", []⟩] else none)
            ⟨[⟨"x0", "mm", ""⟩], []⟩ c2Pool =
          some [⟨"x0n0", "aa", "10.42.0.2"⟩]) :=
  ⟨rfl, claim_C10_empty_ip_uses_xname ⟨"x0", "mm", ""⟩ rfl⟩

theorem claim_C6_bootable_classifier_witness :
    bootPathHint ⟨"1", "eth0", some false, "aa:bb:cc:dd:ee:ff",
        "PciRoot(0x0)/Pci(0x1C,0x0)/Mac(AABBCCDDEEFF,0x0)", []⟩ = true ∧
      isBootable ⟨"1", "eth0", some false, "aa:bb:cc:dd:ee:ff",
        "PciRoot(0x0)/Pci(0x1C,0x0)/Mac(AABBCCDDEEFF,0x0)", []⟩ = true :=
  ⟨by decide, claim_C6_bootable_classifier.1 _ (by decide)⟩
